import Mathlib

/-!
Verification development for the rediscluster feature store
(src/rediscluster/redis.go).  The Redis backend is modelled as a
key-value state in which every key holds either a plain string or a
hash (field/value map); each store operation is translated from the Go
source as a function over that state.  Connectivity failures are
modelled by an optional failure tag on the connection: when present,
every backend command returns that error.
-/

set_option maxHeartbeats 1000000

namespace RedisCluster

/-- A versioned data item (ld.VersionedData).  The opaque payload is
irrelevant to the store logic; `marshalable` records whether
json.Marshal succeeds on the item (serialization is external code and
can fail, so its fallibility is a parameter of the model). -/
structure Item where
  key : String
  version : Int
  deleted : Bool
  marshalable : Bool
deriving DecidableEq

/-- A data kind (ld.VersionedDataKind); only its namespace matters here. -/
structure DataKind where
  ns : String
deriving DecidableEq

/-- Errors visible to the store layer. -/
inductive GoErr where
  | redisNil
  | wrongType
  | connFail (m : String)
  | marshalFail (m : String)
deriving DecidableEq

/-- A serialized value as stored in the backend: either the JSON
encoding of an item (kept abstract) or bytes that do not decode. -/
inductive Blob where
  | item (it : Item)
  | corrupt (s : String)
deriving DecidableEq

/-- A Redis value: plain string or hash. -/
inductive RVal where
  | str (s : String)
  | hash (h : List (String × Blob))
deriving DecidableEq

/-- The backend keyspace. -/
structure RedisState where
  data : String → Option RVal

/-- A client connection: the state it sees, plus an optional
connectivity failure that makes every command return an error. -/
structure Conn where
  st : RedisState
  fail : Option String

/-- Association-list lookup (hash field lookup). -/
def alookup {β : Type} : List (String × β) → String → Option β
  | [], _ => none
  | (k1, v) :: rest, k => if k1 = k then some v else alookup rest k

/-- Association-list removal of a key. -/
def aremove {β : Type} : List (String × β) → String → List (String × β)
  | [], _ => []
  | (k1, v) :: rest, k => if k1 = k then aremove rest k else (k1, v) :: aremove rest k

/-- Association-list update (hash field set). -/
def aset {β : Type} (l : List (String × β)) (k : String) (v : β) : List (String × β) :=
  (k, v) :: aremove l k

/-- json.Marshal on an item. -/
def marshalItem (it : Item) : Except GoErr Blob :=
  if it.marshalable then .ok (Blob.item it) else .error (.marshalFail it.key)

/-- utils.UnmarshalItem on a stored blob. -/
def unmarshalItem (b : Blob) : Except GoErr Item :=
  match b with
  | .item it => .ok it
  | .corrupt s => .error (.marshalFail s)

/-- The `hashtag` constant from the source: "\x7bld\x7d". -/
def hashtag : String := "{ld}"

/-- The `initedKey` constant from the source. -/
def initedKeyName : String := "$inited"

/-- Store options (the fields of redisFeatureStoreOptions that the
store logic reads: the key pre-string and the cache TTL). -/
structure StoreOptions where
  pfx : String
  cacheTTL : Int

/-- redisFeatureStoreCore.GetCacheTTL. -/
def GetCacheTTL (o : StoreOptions) : Int := o.cacheTTL

/-- redisFeatureStoreCore.featuresKey. -/
def featuresKey (o : StoreOptions) (kind : DataKind) : String :=
  o.pfx ++ ":" ++ kind.ns ++ "." ++ hashtag

/-- redisFeatureStoreCore.initedKey. -/
def initedKey (o : StoreOptions) : String :=
  o.pfx ++ ":" ++ initedKeyName ++ "." ++ hashtag

/-- hashTagKey from the source: key + "." + hashtag. -/
def hashTagKey (key : String) : String :=
  key ++ "." ++ hashtag

/-- The tag removed by removeHashTagKey, as a char list: "." + hashtag. -/
def tagL : List Char := ("." ++ hashtag).toList

/-- Whether pat occurs at the head of a list (byte-level match of
strings.Replace / strings.Index, on ASCII data). -/
def leadsWith : List Char → List Char → Bool
  | [], _ => true
  | _ :: _, [] => false
  | p :: ps, c :: cs => p == c && leadsWith ps cs

/-- Whether pat occurs anywhere in a list (strings.Contains). -/
def containsSeq (pat : List Char) : List Char → Bool
  | [] => pat.isEmpty
  | c :: rest => leadsWith pat (c :: rest) || containsSeq pat rest

/-- strings.Replace(s, "." + hashtag, "", -1): remove every
non-overlapping occurrence of the 5-char tag, scanning left to right. -/
def stripTag : List Char → List Char
  | c1 :: c2 :: c3 :: c4 :: c5 :: rest =>
    if leadsWith tagL (c1 :: c2 :: c3 :: c4 :: c5 :: rest) then stripTag rest
    else c1 :: stripTag (c2 :: c3 :: c4 :: c5 :: rest)
  | l => l

/-- removeHashTagKey from the source. -/
def removeHashTagKey (key : String) : String :=
  String.mk (stripTag key.toList)

/-- HGET: missing key or missing field give the redis nil error. -/
def hget (c : Conn) (k f : String) : Except GoErr Blob :=
  match c.fail with
  | some m => .error (.connFail m)
  | none =>
    match c.st.data k with
    | none => .error .redisNil
    | some (.str _) => .error .wrongType
    | some (.hash h) =>
      match alookup h f with
      | some b => .ok b
      | none => .error .redisNil

/-- HGETALL: a missing key is an empty result, not an error. -/
def hgetAll (c : Conn) (k : String) : Except GoErr (List (String × Blob)) :=
  match c.fail with
  | some m => .error (.connFail m)
  | none =>
    match c.st.data k with
    | none => .ok []
    | some (.str _) => .error .wrongType
    | some (.hash h) => .ok h

/-- EXISTS: returns the count of existing keys plus an error slot;
on a connection failure the count is zero and the error is set. -/
def existsCount (c : Conn) (k : String) : Nat × Option GoErr :=
  match c.fail with
  | some m => (0, some (.connFail m))
  | none => ((if (c.st.data k).isSome then 1 else 0), none)

/-- A queued backend write command (pipeline entry). -/
inductive Cmd where
  | del (k : String)
  | hset (k : String) (f : String) (b : Blob)
  | setK (k : String) (v : String)

/-- The key a command writes to. -/
def cmdKey : Cmd → String
  | .del k => k
  | .hset k _ _ => k
  | .setK k _ => k

/-- Effect of one command on the backend state.  HSET on a key that
holds a plain string fails in Redis and leaves the state unchanged. -/
def applyCmd (st : RedisState) : Cmd → RedisState
  | .del k => ⟨fun k2 => if k2 = k then none else st.data k2⟩
  | .hset k f b =>
    match st.data k with
    | some (.hash h) => ⟨fun k2 => if k2 = k then some (.hash (aset h f b)) else st.data k2⟩
    | none => ⟨fun k2 => if k2 = k then some (.hash (aset [] f b)) else st.data k2⟩
    | some (.str _) => st
  | .setK k v => ⟨fun k2 => if k2 = k then some (.str v) else st.data k2⟩

/-- Applying a whole pipeline at EXEC time. -/
def applyCmds (st : RedisState) (cs : List Cmd) : RedisState :=
  cs.foldl applyCmd st

/-- redisFeatureStoreCore.GetInternal: HGET the field for the key in the
kind's hash; the redis nil error becomes (nil item, nil error); any
other error is returned; otherwise the blob is unmarshalled. -/
def GetInternal (o : StoreOptions) (c : Conn) (kind : DataKind) (key : String) :
    Except GoErr (Option Item) :=
  match hget c (featuresKey o kind) (hashTagKey key) with
  | .error e => if e = .redisNil then .ok none else .error e
  | .ok b =>
    match unmarshalItem b with
    | .error e => .error e
    | .ok it => .ok (some it)

/-- The per-field loop of GetAllInternal: unmarshal each stored blob
and record it under the field name with the hash tag removed. -/
def collectAll : List (String × Blob) → Except GoErr (List (String × Item))
  | [] => .ok []
  | (f, b) :: rest =>
    match unmarshalItem b with
    | .error e => .error e
    | .ok it =>
      match collectAll rest with
      | .error e => .error e
      | .ok out => .ok ((removeHashTagKey f, it) :: out)

/-- redisFeatureStoreCore.GetAllInternal. -/
def GetAllInternal (o : StoreOptions) (c : Conn) (kind : DataKind) :
    Except GoErr (List (String × Item)) :=
  match hgetAll c (featuresKey o kind) with
  | .error e => if e = .redisNil then collectAll [] else .error e
  | .ok h => collectAll h

/-- The HSET commands InitInternal queues for one kind: one per item,
aborting with the marshal error if json.Marshal fails. -/
def buildItemCmds (base : String) : List Item → Except GoErr (List Cmd)
  | [] => .ok []
  | it :: rest =>
    match marshalItem it with
    | .error e => .error e
    | .ok b =>
      match buildItemCmds base rest with
      | .error e => .error e
      | .ok cs => .ok (Cmd.hset base (hashTagKey it.key) b :: cs)

/-- The full command list InitInternal queues for the given data: for
each kind, DEL of its hash followed by the HSETs of its items. -/
def buildInitCmds (o : StoreOptions) : List (DataKind × List Item) → Except GoErr (List Cmd)
  | [] => .ok []
  | (kind, items) :: rest =>
    match buildItemCmds (featuresKey o kind) items with
    | .error e => .error e
    | .ok cs =>
      match buildInitCmds o rest with
      | .error e => .error e
      | .ok cs2 => .ok (Cmd.del (featuresKey o kind) :: cs ++ cs2)

/-- redisFeatureStoreCore.InitInternal: queue DEL + HSETs per kind and
a SET of the inited sentinel, then EXEC the pipeline once.  A marshal
failure returns before EXEC, so the state is unchanged; a connection
failure makes EXEC fail with no command applied. -/
def InitInternal (o : StoreOptions) (c : Conn) (allData : List (DataKind × List Item)) :
    RedisState × Option GoErr :=
  match buildInitCmds o allData with
  | .error e => (c.st, some e)
  | .ok cs =>
    match c.fail with
    | some m => (c.st, some (.connFail m))
    | none => (applyCmds c.st (cs ++ [Cmd.setK (initedKey o) ""]), none)

/-- What the backend reports for the transactional EXEC inside
UpsertInternal: it commits, or it returns no result and no error
(the watched key was modified, per the source's own reading of that
case), or it fails with an error. -/
inductive ExecOutcome where
  | success
  | conflict
  | fail (m : String)
deriving DecidableEq

/-- The environment one iteration of the Upsert retry loop runs in:
the connection (other writers may have changed the state between
iterations), the outcome of staging the HSET, and the outcome of EXEC. -/
structure IterEnv where
  conn : Conn
  stageFail : Option String
  exec : ExecOutcome

/-- Result of one iteration of the Upsert retry loop: a returned
(item, error) pair, or a silent retry. -/
inductive IterResult where
  | ret (r : Except GoErr Item)
  | retry

/-- The commit half of one Upsert iteration (after the version gate):
marshal, stage the HSET, EXEC.  In the source, the error from EXEC is
only consulted for the nil-result conflict check; when EXEC fails with
an error the closure still sets item = newItem and returns nil, so
that error is dropped and the iteration reports success without a
write. -/
def upsertCommit (o : StoreOptions) (env : IterEnv) (kind : DataKind) (newItem : Item) :
    RedisState × IterResult :=
  match marshalItem newItem with
  | .error e => (env.conn.st, .ret (.error e))
  | .ok b =>
    match env.stageFail with
    | some m => (env.conn.st, .ret (.error (.connFail m)))
    | none =>
      match env.exec with
      | .conflict => (env.conn.st, .retry)
      | .fail _ => (env.conn.st, .ret (.ok newItem))
      | .success =>
        (applyCmd env.conn.st (Cmd.hset (featuresKey o kind) (hashTagKey newItem.key) b),
         .ret (.ok newItem))

/-- One iteration of the UpsertInternal retry loop: read the current
item, drop the write if the stored version is not older, otherwise
commit. -/
def upsertIter (o : StoreOptions) (env : IterEnv) (kind : DataKind) (newItem : Item) :
    RedisState × IterResult :=
  match GetInternal o env.conn kind newItem.key with
  | .error e => (env.conn.st, .ret (.error e))
  | .ok oldItem =>
    match oldItem with
    | some old =>
      if old.version ≥ newItem.version then (env.conn.st, .ret (.ok old))
      else upsertCommit o env kind newItem
    | none => upsertCommit o env kind newItem

/-- redisFeatureStoreCore.UpsertInternal: run the iteration until it
returns, over the given trace of per-iteration environments; none
means the trace ended with the loop still retrying. -/
def UpsertInternal (o : StoreOptions) (kind : DataKind) (newItem : Item) :
    List IterEnv → Option (RedisState × Except GoErr Item)
  | [] => none
  | env :: rest =>
    match upsertIter o env kind newItem with
    | (st, .ret r) => some (st, r)
    | (_, .retry) => UpsertInternal o kind newItem rest

/-- redisFeatureStoreCore.InitializedInternal: EXISTS on the sentinel
key, discarding the error. -/
def InitializedInternal (o : StoreOptions) (c : Conn) : Bool :=
  (existsCount c (initedKey o)).1 == 1

/-- redisFeatureStoreCore.IsStoreAvailable: EXISTS on the sentinel
key, reporting only whether the command succeeded. -/
def IsStoreAvailable (o : StoreOptions) (c : Conn) : Bool :=
  ((existsCount c (initedKey o)).2).isNone

/-- Modelled from the spec: the caching wrapper
(utils.FeatureStoreWrapper) is vendored outside this repository, so
its cache is modelled from the spec's words.  Entries are (value,
insertion time) keyed by (kind namespace, item key) for single items
and by kind namespace for the all-items aggregate. -/
structure WrapperCache where
  itemEntries : List (String × (Option Item × Int))
  allEntries : List (String × (List (String × Item) × Int))

/-- The empty cache. -/
def emptyCache : WrapperCache := ⟨[], []⟩

/-- The cache key for a single item entry. -/
def entryKey (kind : DataKind) (key : String) : String :=
  kind.ns ++ ":" ++ key

/-- Modelled from the spec: whether a cached entry written at time t is
still fresh at time now — a negative TTL means cached entries never
expire. -/
def cacheFresh (ttl now t : Int) : Bool :=
  if ttl < 0 then true else now < t + ttl

/-- Modelled from the spec: the miss path of the wrapper's Get — call
through to the backend and populate the cache entry on success; on a
backend error the cache is not populated. -/
def wrapperReadItem (o : StoreOptions) (now : Int) (w : WrapperCache) (c : Conn)
    (kind : DataKind) (key : String) :
    Except GoErr (Option Item) × WrapperCache × Bool :=
  match GetInternal o c kind key with
  | .error e => (.error e, w, true)
  | .ok v =>
    if GetCacheTTL o = 0 then (.ok v, w, true)
    else (.ok v, ⟨aset w.itemEntries (entryKey kind key) (v, now), w.allEntries⟩, true)

/-- Modelled from the spec: the wrapper's Get — a TTL of zero disables
caching entirely so every call reaches the backend; otherwise a fresh
cached entry is returned without touching the backend, and a miss
reads through.  The Bool in the result records whether the backend was
reached. -/
def wrapperGet (o : StoreOptions) (now : Int) (w : WrapperCache) (c : Conn)
    (kind : DataKind) (key : String) :
    Except GoErr (Option Item) × WrapperCache × Bool :=
  if GetCacheTTL o = 0 then (GetInternal o c kind key, w, true)
  else
    match alookup w.itemEntries (entryKey kind key) with
    | some (v, t) =>
      if cacheFresh (GetCacheTTL o) now t then (.ok v, w, false)
      else wrapperReadItem o now w c kind key
    | none => wrapperReadItem o now w c kind key

/-- Modelled from the spec: the miss path of the wrapper's GetAll. -/
def wrapperReadAll (o : StoreOptions) (now : Int) (w : WrapperCache) (c : Conn)
    (kind : DataKind) :
    Except GoErr (List (String × Item)) × WrapperCache × Bool :=
  match GetAllInternal o c kind with
  | .error e => (.error e, w, true)
  | .ok vs =>
    if GetCacheTTL o = 0 then (.ok vs, w, true)
    else (.ok vs, ⟨w.itemEntries, aset w.allEntries kind.ns (vs, now)⟩, true)

/-- Modelled from the spec: the wrapper's GetAll, mirroring Get with
the per-kind aggregate entry. -/
def wrapperGetAll (o : StoreOptions) (now : Int) (w : WrapperCache) (c : Conn)
    (kind : DataKind) :
    Except GoErr (List (String × Item)) × WrapperCache × Bool :=
  if GetCacheTTL o = 0 then (GetAllInternal o c kind, w, true)
  else
    match alookup w.allEntries kind.ns with
    | some (vs, t) =>
      if cacheFresh (GetCacheTTL o) now t then (.ok vs, w, false)
      else wrapperReadAll o now w c kind
    | none => wrapperReadAll o now w c kind

/-- Modelled from the spec: the wrapper's Upsert — always call through
to the updater; on success store the returned item in the per-key
entry and invalidate the kind's aggregate entry; on a backend error
leave the cache untouched. -/
def wrapperUpsert (o : StoreOptions) (now : Int) (w : WrapperCache)
    (kind : DataKind) (newItem : Item) (trace : List IterEnv) :
    Option (Except GoErr Item × WrapperCache) :=
  match UpsertInternal o kind newItem trace with
  | none => none
  | some (_, .error e) => some (.error e, w)
  | some (_, .ok it) =>
    if GetCacheTTL o = 0 then some (.ok it, w)
    else
      some (.ok it,
        ⟨aset w.itemEntries (entryKey kind newItem.key) (some it, now),
         aremove w.allEntries kind.ns⟩)

/-! Concrete sample values used by the witness theorems. -/

/-- Sample store options with the default key pre-string. -/
def sampleOpts : StoreOptions := ⟨"launchdarkly", 15⟩

/-- The "features" kind. -/
def featuresKind : DataKind := ⟨"features"⟩

/-- A version-2 item under key "flag". -/
def itemV2 : Item := ⟨"flag", 2, false, true⟩

/-- A version-1 item under key "flag". -/
def itemV1 : Item := ⟨"flag", 1, false, true⟩

/-- A backend state holding itemV2 in the features hash. -/
def sampleState : RedisState :=
  ⟨fun k => if k = "launchdarkly:features.{ld}" then
      some (.hash [("flag.{ld}", .item itemV2)]) else none⟩

/-- An empty backend state. -/
def emptyState : RedisState := ⟨fun _ => none⟩

/-- A healthy connection to the sample state. -/
def sampleConn : Conn := ⟨sampleState, none⟩

/-- A healthy connection to the empty state. -/
def emptyConn : Conn := ⟨emptyState, none⟩

/-- A connection whose commands all fail. -/
def downConn : Conn := ⟨emptyState, some "connection refused"⟩

/-- A healthy iteration environment whose EXEC succeeds, over the
sample state. -/
def healthyEnv : IterEnv := ⟨sampleConn, none, .success⟩

/-- An iteration environment over the empty state whose EXEC reports a
conflict. -/
def conflictEnv : IterEnv := ⟨emptyConn, none, .conflict⟩

/-- An iteration environment over the empty state whose EXEC fails
with a backend error. -/
def execFailEnv : IterEnv := ⟨emptyConn, none, .fail "connection lost"⟩

/-- A healthy connection to a state holding only the inited sentinel. -/
def initedConn : Conn :=
  ⟨⟨fun k => if k = "launchdarkly:$inited.{ld}" then some (.str "") else none⟩, none⟩

/-- The conditions under which one Upsert iteration reaches EXEC and
EXEC reports a conflict: the read succeeds, the version gate passes,
marshalling succeeds, staging succeeds, and EXEC returns no result
because the watched key was modified. -/
def conflictIterEnv (o : StoreOptions) (kind : DataKind) (newItem : Item)
    (env : IterEnv) : Prop :=
  env.stageFail = none ∧ env.exec = .conflict ∧ newItem.marshalable = true ∧
  (GetInternal o env.conn kind newItem.key = .ok none ∨
    ∃ old, GetInternal o env.conn kind newItem.key = .ok (some old) ∧
      old.version < newItem.version)

/-- The HSET commands for one kind when every item marshals. -/
def itemCmds (base : String) (items : List Item) : List Cmd :=
  items.map (fun it => Cmd.hset base (hashTagKey it.key) (Blob.item it))

/-- The full Init pipeline (before the sentinel SET) when every item
marshals. -/
def initCmds (o : StoreOptions) : List (DataKind × List Item) → List Cmd
  | [] => []
  | (kind, items) :: rest =>
    (Cmd.del (featuresKey o kind) :: itemCmds (featuresKey o kind) items) ++ initCmds o rest

/-- The hash contents produced by HSETting each item in order,
starting from hs. -/
def hashFold (hs : List (String × Blob)) : List Item → List (String × Blob)
  | [] => hs
  | it :: rest => hashFold (aset hs (hashTagKey it.key) (Blob.item it)) rest

/-- The value a freshly deleted hash key holds after HSETting the
given items: absent for no items, else the built hash. -/
def hashRV (items : List Item) : Option RVal :=
  match items with
  | [] => none
  | _ :: _ => some (.hash (hashFold [] items))

/-! ### Lemmas and theorems -/

/-- Claim C7: IsStoreAvailable performs a single uncached existence
check on the sentinel key and always returns a boolean: false exactly
when the backend round-trip fails, true when it succeeds, with no
error propagated; its value does not depend on the stored data. -/
theorem isStoreAvailable_reports_connectivity (o : StoreOptions) (c : Conn) :
    IsStoreAvailable o c = c.fail.isNone ∧
    (∀ st2 : RedisState, IsStoreAvailable o ⟨st2, c.fail⟩ = IsStoreAvailable o c) := by
  constructor
  · cases h : c.fail <;> simp [IsStoreAvailable, existsCount, h]
  · intro st2; cases h : c.fail <;> simp [IsStoreAvailable, existsCount, h]

/-- Claim C10: if the existence check inside Initialized fails, the
error is discarded and Initialized returns false; it returns true only
when the check succeeds and the sentinel key exists. -/
theorem initialized_discards_error (o : StoreOptions) (c : Conn) :
    (∀ m, c.fail = some m → InitializedInternal o c = false) ∧
    (InitializedInternal o c = true →
      c.fail = none ∧ (c.st.data (initedKey o)).isSome = true) := by
  constructor
  · intro m h; simp [InitializedInternal, existsCount, h]
  · intro h
    cases hf : c.fail with
    | some m => simp [InitializedInternal, existsCount, hf] at h
    | none =>
      refine ⟨rfl, ?_⟩
      by_cases hd : (c.st.data (initedKey o)).isSome
      · exact hd
      · simp [InitializedInternal, existsCount, hf, hd] at h

/-- Witness for C10 at a failing connection. -/
theorem initialized_discards_error_witness :
    InitializedInternal sampleOpts downConn = false :=
  (initialized_discards_error sampleOpts downConn).1 "connection refused" rfl

/-- Claim C9: when the backend holds no entry for (kind, key), Get
returns nil item and nil error; a backend failure is instead returned
as a non-nil error, so the two cases are distinguishable. -/
theorem get_missing_key_nil_nil (o : StoreOptions) (c : Conn)
    (kind : DataKind) (key : String) :
    (c.fail = none →
      (c.st.data (featuresKey o kind) = none ∨
        ∃ h, c.st.data (featuresKey o kind) = some (.hash h) ∧
          alookup h (hashTagKey key) = none) →
      GetInternal o c kind key = .ok none) ∧
    (∀ m, c.fail = some m → GetInternal o c kind key = .error (.connFail m)) := by
  constructor
  · rintro hf (hd | ⟨h, hd, hl⟩)
    · simp [GetInternal, hget, hf, hd]
    · simp [GetInternal, hget, hf, hd, hl]
  · intro m hm; simp [GetInternal, hget, hm]

/-- Witness for C9 at the empty store. -/
theorem get_missing_key_nil_nil_witness :
    GetInternal sampleOpts emptyConn featuresKind "nope" = .ok none :=
  (get_missing_key_nil_nil sampleOpts emptyConn featuresKind "nope").1 rfl (Or.inl rfl)

/-- Claim C1: when a stored item exists for the new item's key with a
version greater than or equal to the new item's version, Upsert
performs no write (the state is returned unchanged) and returns the
stored item with a nil error. -/
theorem upsert_stale_returns_stored (o : StoreOptions) (env : IterEnv)
    (rest : List IterEnv) (kind : DataKind) (newItem old : Item)
    (h : List (String × Blob))
    (hfail : env.conn.fail = none)
    (hd : env.conn.st.data (featuresKey o kind) = some (.hash h))
    (hl : alookup h (hashTagKey newItem.key) = some (.item old))
    (hv : old.version ≥ newItem.version) :
    UpsertInternal o kind newItem (env :: rest) = some (env.conn.st, .ok old) := by
  have hg : GetInternal o env.conn kind newItem.key = .ok (some old) := by
    simp [GetInternal, hget, hfail, hd, hl, unmarshalItem]
  simp [UpsertInternal, upsertIter, hg, hv]

/-- Witness for C1: upserting version 1 over stored version 2 returns
the stored version-2 item and leaves the state unchanged. -/
theorem upsert_stale_returns_stored_witness :
    UpsertInternal sampleOpts featuresKind itemV1 [healthyEnv] =
      some (sampleState, .ok itemV2) :=
  upsert_stale_returns_stored sampleOpts healthyEnv [] featuresKind itemV1 itemV2
    [("flag.{ld}", .item itemV2)] rfl (by decide) (by decide) (by decide)

/-- Claim C2: when EXEC detects that the watched collection key was
modified, the staged write is discarded (state unchanged), no error is
surfaced, and the whole sequence is retried from the beginning; a
trace of conflicts of any length keeps the loop retrying, so retries
are unbounded. -/
theorem upsert_conflict_silent_unbounded_retry (o : StoreOptions)
    (kind : DataKind) (newItem : Item) :
    (∀ env rest, conflictIterEnv o kind newItem env →
      upsertIter o env kind newItem = (env.conn.st, .retry) ∧
      UpsertInternal o kind newItem (env :: rest) = UpsertInternal o kind newItem rest) ∧
    (∀ envs : List IterEnv, (∀ env ∈ envs, conflictIterEnv o kind newItem env) →
      UpsertInternal o kind newItem envs = none) := by
  have hiter : ∀ env, conflictIterEnv o kind newItem env →
      upsertIter o env kind newItem = (env.conn.st, .retry) := by
    rintro env ⟨hs, he, hm, hg | ⟨old, hg, hv⟩⟩
    · simp [upsertIter, hg, upsertCommit, marshalItem, hm, hs, he]
    · have hnv : ¬ old.version ≥ newItem.version := by omega
      simp [upsertIter, hg, hnv, upsertCommit, marshalItem, hm, hs, he]
  constructor
  · intro env rest hc
    refine ⟨hiter env hc, ?_⟩
    simp [UpsertInternal, hiter env hc]
  · intro envs h
    induction envs with
    | nil => rfl
    | cons env rest ih =>
      have h1 := hiter env (h env (by simp))
      have h2 : UpsertInternal o kind newItem rest = none :=
        ih (fun e he => h e (by simp [he]))
      simp [UpsertInternal, h1, h2]

/-- Witness for C2: two consecutive conflicts keep the loop running
with no result and no error. -/
theorem upsert_conflict_silent_unbounded_retry_witness :
    UpsertInternal sampleOpts featuresKind itemV1 [conflictEnv, conflictEnv] = none :=
  (upsert_conflict_silent_unbounded_retry sampleOpts featuresKind itemV1).2
    [conflictEnv, conflictEnv]
    (by
      intro e he
      have he2 : e = conflictEnv := by
        rcases List.mem_cons.mp he with h | h
        · exact h
        · simpa using h
      subst he2
      exact ⟨rfl, rfl, rfl, Or.inl rfl⟩)

/-- Claim C3 (code bug): when the EXEC commit step fails with a
backend error, UpsertInternal drops that error — the source only
consults the EXEC error for the nil-result conflict check, then sets
item = newItem and returns nil — so the call reports the new item with
a nil error even though nothing was committed. -/
theorem upsert_exec_error_masked_as_success :
    UpsertInternal sampleOpts featuresKind itemV1 [execFailEnv] =
      some (emptyState, .ok itemV1) := rfl

/-- Applying a concatenated pipeline applies the two halves in order. -/
theorem applyCmds_append (st : RedisState) (a b : List Cmd) :
    applyCmds st (a ++ b) = applyCmds (applyCmds st a) b := by
  simp [applyCmds, List.foldl_append]

/-- HSET leaves every other key unchanged. -/
theorem applyCmd_hset_other (st : RedisState) (kc f : String) (b : Blob) (k : String)
    (hk : k ≠ kc) : (applyCmd st (Cmd.hset kc f b)).data k = st.data k := by
  simp only [applyCmd]
  split <;> simp [hk]

/-- When every item marshals, the per-kind command builder succeeds. -/
theorem buildItemCmds_isOk (base : String) (items : List Item)
    (h : ∀ it ∈ items, it.marshalable = true) :
    ∃ cs, buildItemCmds base items = .ok cs := by
  induction items with
  | nil => exact ⟨[], rfl⟩
  | cons it rest ih =>
    have h1 : it.marshalable = true := h it (by simp)
    obtain ⟨cs, hcs⟩ := ih (fun x hx => h x (by simp [hx]))
    refine ⟨Cmd.hset base (hashTagKey it.key) (Blob.item it) :: cs, ?_⟩
    simp [buildItemCmds, marshalItem, h1, hcs]

/-- When every item of every kind marshals, the Init command builder
succeeds. -/
theorem buildInitCmds_isOk (o : StoreOptions) (allData : List (DataKind × List Item))
    (h : ∀ p ∈ allData, ∀ it ∈ p.2, it.marshalable = true) :
    ∃ cs, buildInitCmds o allData = .ok cs := by
  induction allData with
  | nil => exact ⟨[], rfl⟩
  | cons p rest ih =>
    obtain ⟨cs1, hcs1⟩ := buildItemCmds_isOk (featuresKey o p.1) p.2 (h p (by simp))
    obtain ⟨cs2, hcs2⟩ := ih (fun x hx => h x (by simp [hx]))
    refine ⟨Cmd.del (featuresKey o p.1) :: cs1 ++ cs2, ?_⟩
    cases p
    simp only [buildInitCmds]
    simp [hcs1, hcs2]

/-- Distinct namespaces give distinct collection keys; in particular a
kind whose namespace is not "$inited" cannot touch the sentinel key. -/
theorem featuresKey_ne_initedKey (o : StoreOptions) (kind : DataKind)
    (h : kind.ns ≠ initedKeyName) : featuresKey o kind ≠ initedKey o := by
  intro he
  apply h
  apply String.ext
  have hd := congrArg String.data he
  simp [featuresKey, initedKey] at hd
  exact hd

/-- One Upsert iteration never writes to any key other than the
collection key of the kind being upserted. -/
theorem upsertIter_data_other (o : StoreOptions) (env : IterEnv) (kind : DataKind)
    (newItem : Item) (k : String) (hk : k ≠ featuresKey o kind) :
    (upsertIter o env kind newItem).1.data k = env.conn.st.data k := by
  unfold upsertIter upsertCommit
  split
  · rfl
  · split
    · split
      · rfl
      · split
        · rfl
        · split
          · rfl
          · split
            · rfl
            · rfl
            · exact applyCmd_hset_other _ _ _ _ _ hk
    · split
      · rfl
      · split
        · rfl
        · split
          · rfl
          · rfl
          · exact applyCmd_hset_other _ _ _ _ _ hk

/-- Claim C5: the sentinel key is created by Init (which always sets
it when it runs to completion), is never created by Upsert for any
ordinary kind, and Initialized reports true exactly when the check
succeeds and the sentinel key exists. -/
theorem inited_sentinel_lifecycle (o : StoreOptions) :
    (∀ (c : Conn) (allData : List (DataKind × List Item)),
      c.fail = none →
      (∀ p ∈ allData, ∀ it ∈ p.2, it.marshalable = true) →
      (InitInternal o c allData).1.data (initedKey o) = some (.str "")) ∧
    (∀ (env : IterEnv) (kind : DataKind) (newItem : Item),
      kind.ns ≠ initedKeyName →
      (upsertIter o env kind newItem).1.data (initedKey o) =
        env.conn.st.data (initedKey o)) ∧
    (∀ c : Conn, InitializedInternal o c = true ↔
      (c.fail = none ∧ (c.st.data (initedKey o)).isSome = true)) := by
  refine ⟨?_, ?_, ?_⟩
  · intro c allData hfail hm
    obtain ⟨cs, hcs⟩ := buildInitCmds_isOk o allData hm
    simp [InitInternal, hcs, hfail, applyCmds_append, applyCmds, applyCmd]
  · intro env kind newItem hns
    exact upsertIter_data_other o env kind newItem _
      (fun he => featuresKey_ne_initedKey o kind hns he.symm)
  · intro c
    constructor
    · intro h
      cases hf : c.fail with
      | some m => simp [InitializedInternal, existsCount, hf] at h
      | none =>
        refine ⟨rfl, ?_⟩
        by_cases hd : (c.st.data (initedKey o)).isSome
        · exact hd
        · simp [InitializedInternal, existsCount, hf, hd] at h
    · rintro ⟨hf, hd⟩
      simp [InitializedInternal, existsCount, hf, hd]

/-- Witness for C5: on a state holding only the sentinel, Initialized
reports true. -/
theorem inited_sentinel_lifecycle_witness :
    InitializedInternal sampleOpts initedConn = true :=
  ((inited_sentinel_lifecycle sampleOpts).2.2 initedConn).mpr ⟨rfl, by decide⟩

/-- Removing one key does not change lookups under any other key. -/
theorem alookup_aremove_ne {β : Type} (l : List (String × β)) (k k2 : String)
    (h : k2 ≠ k) : alookup (aremove l k) k2 = alookup l k2 := by
  induction l with
  | nil => rfl
  | cons a rest ih =>
    obtain ⟨k1, v⟩ := a
    by_cases ha : k1 = k
    · have ha2 : k1 ≠ k2 := fun he => h (he ▸ ha ▸ rfl)
      have hk : k ≠ k2 := fun he => h he.symm
      simp [aremove, alookup, ha, hk, ih]
    · simp only [aremove, alookup, if_neg ha]
      by_cases ha2 : k1 = k2
      · simp [alookup, ha2]
      · simp [alookup, ha2, ih]

/-- Setting a field makes it the looked-up value. -/
theorem alookup_aset_self {β : Type} (l : List (String × β)) (k : String) (v : β) :
    alookup (aset l k v) k = some v := by
  simp [alookup, aset]

/-- Setting a field does not change any other field. -/
theorem alookup_aset_other {β : Type} (l : List (String × β)) (k k2 : String) (v : β)
    (h : k2 ≠ k) : alookup (aset l k v) k2 = alookup l k2 := by
  have hne : k ≠ k2 := fun he => h he.symm
  simp only [aset, alookup, if_neg hne]
  exact alookup_aremove_ne l k k2 h

/-- hashTagKey is injective: two caller keys collide only if they are
equal. -/
theorem hashTagKey_inj (a b : String) (h : hashTagKey a = hashTagKey b) : a = b := by
  apply String.ext
  have hd := congrArg String.data h
  simp [hashTagKey] at hd
  exact hd

/-- Every command queued for a kind's items writes to that kind's key. -/
theorem itemCmds_keys (base : String) (items : List Item) (cm : Cmd)
    (h : cm ∈ itemCmds base items) : cmdKey cm = base := by
  induction items with
  | nil => simp [itemCmds] at h
  | cons it rest ih =>
    rcases List.mem_cons.mp h with h1 | h1
    · subst h1; rfl
    · exact ih h1

/-- Every command the Init pipeline queues writes to the collection
key of one of the given kinds. -/
theorem initCmds_keys (o : StoreOptions) (allData : List (DataKind × List Item)) (cm : Cmd)
    (h : cm ∈ initCmds o allData) :
    ∃ p ∈ allData, cmdKey cm = featuresKey o p.1 := by
  induction allData with
  | nil => simp [initCmds] at h
  | cons p rest ih =>
    obtain ⟨kind, items⟩ := p
    simp only [initCmds, List.cons_append, List.mem_cons, List.mem_append] at h
    rcases h with h1 | h1 | h1
    · exact ⟨(kind, items), by simp, by subst h1; rfl⟩
    · exact ⟨(kind, items), by simp, itemCmds_keys _ _ _ h1⟩
    · obtain ⟨q, hq, hk⟩ := ih h1
      exact ⟨q, by simp [hq], hk⟩

/-- A command for a different key leaves a key's value unchanged. -/
theorem applyCmd_other (st : RedisState) (cm : Cmd) (k : String)
    (hk : cmdKey cm ≠ k) : (applyCmd st cm).data k = st.data k := by
  cases cm with
  | del kc => simp [applyCmd, cmdKey] at hk ⊢; intro he; exact absurd he.symm hk
  | hset kc f b => exact applyCmd_hset_other st kc f b k (fun he => hk (by simp [cmdKey, he]))
  | setK kc v => simp [applyCmd, cmdKey] at hk ⊢; intro he; exact absurd he.symm hk

/-- A pipeline of commands for other keys leaves a key's value
unchanged. -/
theorem applyCmds_other (st : RedisState) (cs : List Cmd) (k : String)
    (h : ∀ cm ∈ cs, cmdKey cm ≠ k) : (applyCmds st cs).data k = st.data k := by
  induction cs generalizing st with
  | nil => rfl
  | cons cm rest ih =>
    have : applyCmds st (cm :: rest) = applyCmds (applyCmd st cm) rest := rfl
    rw [this, ih _ (fun x hx => h x (by simp [hx])), applyCmd_other st cm k (h cm (by simp))]

/-- When every item marshals, buildItemCmds produces exactly the HSET
list. -/
theorem buildItemCmds_ok (base : String) (items : List Item)
    (h : ∀ it ∈ items, it.marshalable = true) :
    buildItemCmds base items = .ok (itemCmds base items) := by
  induction items with
  | nil => rfl
  | cons it rest ih =>
    have h1 : it.marshalable = true := h it (by simp)
    have h2 := ih (fun x hx => h x (by simp [hx]))
    simp [buildItemCmds, marshalItem, h1, h2, itemCmds]

/-- When every item of every kind marshals, buildInitCmds produces
exactly the Init pipeline. -/
theorem buildInitCmds_ok (o : StoreOptions) (allData : List (DataKind × List Item))
    (h : ∀ p ∈ allData, ∀ it ∈ p.2, it.marshalable = true) :
    buildInitCmds o allData = .ok (initCmds o allData) := by
  induction allData with
  | nil => rfl
  | cons p rest ih =>
    obtain ⟨kind, items⟩ := p
    have h1 := buildItemCmds_ok (featuresKey o kind) items (h (kind, items) (by simp))
    have h2 := ih (fun x hx => h x (by simp [hx]))
    simp [buildInitCmds, h1, h2, initCmds]

/-- If some item fails to marshal, buildItemCmds fails. -/
theorem buildItemCmds_isErr (base : String) (items : List Item)
    (h : ∃ it ∈ items, it.marshalable = false) :
    ∃ e, buildItemCmds base items = .error e := by
  induction items with
  | nil => simp at h
  | cons it rest ih =>
    by_cases h1 : it.marshalable = true
    · obtain ⟨x, hx, hxm⟩ := h
      rcases List.mem_cons.mp hx with he | he
      · subst he; rw [h1] at hxm; cases hxm
      · obtain ⟨e, hee⟩ := ih ⟨x, he, hxm⟩
        exact ⟨e, by simp [buildItemCmds, marshalItem, h1, hee]⟩
    · refine ⟨.marshalFail it.key, ?_⟩
      have : it.marshalable = false := by simpa using h1
      simp [buildItemCmds, marshalItem, this]

/-- If some item of some kind fails to marshal, buildInitCmds fails. -/
theorem buildInitCmds_isErr (o : StoreOptions) (allData : List (DataKind × List Item))
    (h : ∃ p ∈ allData, ∃ it ∈ p.2, it.marshalable = false) :
    ∃ e, buildInitCmds o allData = .error e := by
  induction allData with
  | nil => simp at h
  | cons p rest ih =>
    obtain ⟨kind, items⟩ := p
    by_cases h1 : ∀ it ∈ items, it.marshalable = true
    · obtain ⟨q, hq, x, hx, hxm⟩ := h
      rcases List.mem_cons.mp hq with he | he
      · subst he
        rw [h1 x hx] at hxm; cases hxm
      · obtain ⟨e, hee⟩ := ih ⟨q, he, x, hx, hxm⟩
        have h2 := buildItemCmds_ok (featuresKey o kind) items h1
        exact ⟨e, by simp [buildInitCmds, h2, hee]⟩
    · push_neg at h1
      obtain ⟨x, hx, hxm⟩ := h1
      obtain ⟨e, hee⟩ := buildItemCmds_isErr (featuresKey o kind) items
        ⟨x, hx, by simpa using hxm⟩
      exact ⟨e, by simp [buildInitCmds, hee]⟩

/-- HSETting items onto an existing hash folds them into it. -/
theorem applyItemCmds_hash (base : String) (items : List Item) (st : RedisState)
    (hs : List (String × Blob)) (hst : st.data base = some (.hash hs)) :
    (applyCmds st (itemCmds base items)).data base = some (.hash (hashFold hs items)) := by
  induction items generalizing st hs with
  | nil => simpa [applyCmds, itemCmds, hashFold] using hst
  | cons it rest ih =>
    have hstep : (applyCmd st (Cmd.hset base (hashTagKey it.key) (Blob.item it))).data base
        = some (.hash (aset hs (hashTagKey it.key) (Blob.item it))) := by
      simp [applyCmd, hst]
    have : applyCmds st (itemCmds base (it :: rest))
        = applyCmds (applyCmd st (Cmd.hset base (hashTagKey it.key) (Blob.item it)))
            (itemCmds base rest) := rfl
    rw [this, ih _ _ hstep]
    rfl

/-- HSETting items onto a freshly deleted key yields hashRV. -/
theorem after_group_data (base : String) (items : List Item) (st : RedisState)
    (hst : st.data base = none) :
    (applyCmds st (itemCmds base items)).data base = hashRV items := by
  cases items with
  | nil => simpa [applyCmds, itemCmds, hashRV] using hst
  | cons it rest =>
    have hstep : (applyCmd st (Cmd.hset base (hashTagKey it.key) (Blob.item it))).data base
        = some (.hash (aset [] (hashTagKey it.key) (Blob.item it))) := by
      simp [applyCmd, hst]
    have h1 : applyCmds st (itemCmds base (it :: rest))
        = applyCmds (applyCmd st (Cmd.hset base (hashTagKey it.key) (Blob.item it)))
            (itemCmds base rest) := rfl
    rw [h1, applyItemCmds_hash base rest _ _ hstep]
    rfl

/-- After the whole Init pipeline, each given kind's key holds exactly
the hash built from its items. -/
theorem init_group_data (o : StoreOptions) (allData : List (DataKind × List Item))
    (st : RedisState) (kind : DataKind) (items : List Item)
    (hkeys : (allData.map (fun p => featuresKey o p.1)).Nodup)
    (hmem : (kind, items) ∈ allData) :
    (applyCmds st (initCmds o allData)).data (featuresKey o kind) = hashRV items := by
  induction allData generalizing st with
  | nil => simp at hmem
  | cons p rest ih =>
    obtain ⟨k0, i0⟩ := p
    have hn2 : featuresKey o k0 ∉ rest.map (fun p => featuresKey o p.1) ∧
        (rest.map (fun p => featuresKey o p.1)).Nodup := List.nodup_cons.mp hkeys
    have hsplit : applyCmds st (initCmds o ((k0, i0) :: rest))
        = applyCmds (applyCmds st (Cmd.del (featuresKey o k0) :: itemCmds (featuresKey o k0) i0))
            (initCmds o rest) := by
      show applyCmds st ((Cmd.del (featuresKey o k0) :: itemCmds (featuresKey o k0) i0)
        ++ initCmds o rest) = _
      rw [applyCmds_append]
    rcases List.mem_cons.mp hmem with he | he
    · have hk1 : kind = k0 := congrArg Prod.fst he
      have hk2 : items = i0 := congrArg Prod.snd he
      subst hk1; subst hk2
      have hrest : (applyCmds (applyCmds st (Cmd.del (featuresKey o kind) ::
          itemCmds (featuresKey o kind) items)) (initCmds o rest)).data (featuresKey o kind)
          = (applyCmds st (Cmd.del (featuresKey o kind) ::
              itemCmds (featuresKey o kind) items)).data (featuresKey o kind) := by
        apply applyCmds_other
        intro cm hcm
        obtain ⟨q, hq, hcmk⟩ := initCmds_keys o rest cm hcm
        rw [hcmk]
        intro hcon
        exact hn2.1 (by rw [← hcon]; exact List.mem_map.mpr ⟨q, hq, rfl⟩)
      have hdel : (applyCmd st (Cmd.del (featuresKey o kind))).data (featuresKey o kind)
          = none := by simp [applyCmd]
      have hgroup : applyCmds st (Cmd.del (featuresKey o kind) ::
          itemCmds (featuresKey o kind) items)
          = applyCmds (applyCmd st (Cmd.del (featuresKey o kind)))
              (itemCmds (featuresKey o kind) items) := rfl
      rw [hsplit, hrest, hgroup, after_group_data _ _ _ hdel]
    · rw [hsplit, ih _ hn2.2 he]

/-- Fields other than those of the folded items keep their prior
lookup value. -/
theorem lookup_hashFold_of_notmem (items : List Item) (hs : List (String × Blob))
    (f : String) (h : ∀ it ∈ items, hashTagKey it.key ≠ f) :
    alookup (hashFold hs items) f = alookup hs f := by
  induction items generalizing hs with
  | nil => rfl
  | cons it rest ih =>
    have h1 : hashTagKey it.key ≠ f := h it (by simp)
    have := ih (aset hs (hashTagKey it.key) (Blob.item it)) (fun x hx => h x (by simp [hx]))
    rw [hashFold, this, alookup_aset_other _ _ _ _ (fun hh => h1 hh.symm)]

/-- Each folded item (under distinct keys) is found under its tagged
field. -/
theorem lookup_hashFold_mem (items : List Item) (hs : List (String × Blob)) (it : Item)
    (hnd : (items.map Item.key).Nodup) (hmem : it ∈ items) :
    alookup (hashFold hs items) (hashTagKey it.key) = some (.item it) := by
  induction items generalizing hs with
  | nil => simp at hmem
  | cons j rest ih =>
    have hn : j.key ∉ rest.map Item.key ∧ (rest.map Item.key).Nodup :=
      List.nodup_cons.mp hnd
    rcases List.mem_cons.mp hmem with he | he
    · subst he
      have hnm : ∀ x ∈ rest, hashTagKey x.key ≠ hashTagKey it.key := by
        intro x hx hcon
        have hxy : x.key = it.key := hashTagKey_inj _ _ hcon
        exact hn.1 (List.mem_map.mpr ⟨x, hx, hxy⟩)
      rw [hashFold, lookup_hashFold_of_notmem rest _ _ hnm, alookup_aset_self]
    · exact ih _ hn.2 he

/-- For a nonempty item list the rebuilt key holds the folded hash. -/
theorem hashRV_ne_nil (items : List Item) (h : items ≠ []) :
    hashRV items = some (.hash (hashFold [] items)) := by
  cases items with
  | nil => exact absurd rfl h
  | cons it rest => rfl

/-- After a completed Init, each given kind's collection key holds
exactly the hash rebuilt from that kind's items. -/
theorem init_final_data (o : StoreOptions) (c : Conn)
    (allData : List (DataKind × List Item)) (kind : DataKind) (items : List Item)
    (hmarsh : ∀ p ∈ allData, ∀ it ∈ p.2, it.marshalable = true)
    (hfail : c.fail = none)
    (hkeys : (allData.map (fun p => featuresKey o p.1)).Nodup)
    (hmem : (kind, items) ∈ allData)
    (hikk : featuresKey o kind ≠ initedKey o) :
    (InitInternal o c allData).1.data (featuresKey o kind) = hashRV items := by
  have hbc := buildInitCmds_ok o allData hmarsh
  simp only [InitInternal, hbc, hfail]
  rw [applyCmds_append]
  have hsetk : (applyCmds (applyCmds c.st (initCmds o allData))
      [Cmd.setK (initedKey o) ""]).data (featuresKey o kind)
      = (applyCmds c.st (initCmds o allData)).data (featuresKey o kind) := by
    apply applyCmds_other
    intro cm hcm
    have : cm = Cmd.setK (initedKey o) "" := by simpa using hcm
    subst this
    exact fun he => hikk he.symm
  rw [hsetk, init_group_data o allData c.st kind items hkeys hmem]

/-- Claim C4: Init replaces the entire stored contents of each given
kind — all previously stored items of that kind are gone and exactly
the given items are readable afterwards — and sets the inited marker,
with all writes applied by the single pipeline EXEC; if any item fails
to serialize, Init returns an error and no backend write is executed,
and if EXEC itself fails no write is applied either. -/
theorem init_replaces_contents (o : StoreOptions) (c : Conn)
    (allData : List (DataKind × List Item))
    (hkeys : (allData.map (fun p => featuresKey o p.1)).Nodup)
    (hik : ∀ p ∈ allData, featuresKey o p.1 ≠ initedKey o)
    (hnodup : ∀ p ∈ allData, (p.2.map Item.key).Nodup) :
    ((∀ p ∈ allData, ∀ it ∈ p.2, it.marshalable = true) → c.fail = none →
      (InitInternal o c allData).2 = none ∧
      (InitInternal o c allData).1.data (initedKey o) = some (.str "") ∧
      (∀ kind items, (kind, items) ∈ allData →
        (∀ it ∈ items,
          GetInternal o ⟨(InitInternal o c allData).1, none⟩ kind it.key = .ok (some it)) ∧
        (∀ key, key ∉ items.map Item.key →
          GetInternal o ⟨(InitInternal o c allData).1, none⟩ kind key = .ok none))) ∧
    ((∃ p ∈ allData, ∃ it ∈ p.2, it.marshalable = false) →
      (InitInternal o c allData).1 = c.st ∧ ((InitInternal o c allData).2).isSome = true) ∧
    (∀ m, c.fail = some m → (∀ p ∈ allData, ∀ it ∈ p.2, it.marshalable = true) →
      InitInternal o c allData = (c.st, some (.connFail m))) := by
  refine ⟨?_, ?_, ?_⟩
  · intro hmarsh hfail
    have hbc := buildInitCmds_ok o allData hmarsh
    refine ⟨by simp [InitInternal, hbc, hfail], ?_, ?_⟩
    · simp [InitInternal, hbc, hfail, applyCmds_append, applyCmds, applyCmd]
    · intro kind items hmem
      have hfd := init_final_data o c allData kind items hmarsh hfail hkeys hmem
        (hik (kind, items) hmem)
      constructor
      · intro it hit
        have hne : items ≠ [] := by intro hn; subst hn; simp at hit
        rw [hashRV_ne_nil _ hne] at hfd
        have hl := lookup_hashFold_mem items [] it (hnodup (kind, items) hmem) hit
        simp [GetInternal, hget, hfd, hl, unmarshalItem]
      · intro key hkey
        cases items with
        | nil =>
          simp [hashRV] at hfd
          simp [GetInternal, hget, hfd]
        | cons j rest =>
          rw [hashRV_ne_nil _ (by simp)] at hfd
          have hnm : ∀ x ∈ j :: rest, hashTagKey x.key ≠ hashTagKey key := by
            intro x hx hcon
            exact hkey (List.mem_map.mpr ⟨x, hx, hashTagKey_inj _ _ hcon⟩)
          have hl := lookup_hashFold_of_notmem (j :: rest) [] (hashTagKey key) hnm
          simp only [alookup] at hl
          simp [GetInternal, hget, hfd, hl]
  · intro hbad
    obtain ⟨e, he⟩ := buildInitCmds_isErr o allData hbad
    exact ⟨by simp [InitInternal, he], by simp [InitInternal, he]⟩
  · intro m hm hmarsh
    have hbc := buildInitCmds_ok o allData hmarsh
    simp [InitInternal, hbc, hm]

/-- Witness for C4: initializing the empty store with one features
item succeeds, makes the item readable, sets the sentinel, and a
non-serializable item makes Init fail with the state unchanged. -/
theorem init_replaces_contents_witness :
    (InitInternal sampleOpts emptyConn [(featuresKind, [itemV2])]).2 = none ∧
    GetInternal sampleOpts
      ⟨(InitInternal sampleOpts emptyConn [(featuresKind, [itemV2])]).1, none⟩
      featuresKind "flag" = .ok (some itemV2) :=
  have h := (init_replaces_contents sampleOpts emptyConn [(featuresKind, [itemV2])]
    (by decide) (by decide) (by decide)).1 (by decide) rfl
  ⟨h.1, (h.2.2 featuresKind [itemV2] (by decide)).1 itemV2 (by decide)⟩

/-- A head match of a pattern against an append splits into a match of
the pattern's head against the left part and of its remainder at the
junction. -/
theorem leadsWith_split (l p s : List Char) :
    leadsWith p (l ++ s)
      = (leadsWith (p.take l.length) l && leadsWith (p.drop l.length) s) := by
  induction l generalizing p with
  | nil => simp [leadsWith]
  | cons c cs ih =>
    cases p with
    | nil => simp [leadsWith]
    | cons q qs =>
      simp only [List.cons_append, leadsWith, List.length_cons, List.take_succ_cons,
        List.drop_succ_cons, List.append_eq, ih, Bool.and_assoc]

/-- The tag is unbordered: no nonempty proper suffix of it begins it. -/
theorem tagL_unbordered :
    ∀ t, t < 5 → 0 < t → leadsWith (List.drop t tagL) tagL = false := by decide

/-- A head match survives extending the list on the right. -/
theorem leadsWith_mono (p l s : List Char) (h : leadsWith p l = true) :
    leadsWith p (l ++ s) = true := by
  induction p generalizing l with
  | nil => rfl
  | cons q qs ih =>
    cases l with
    | nil => simp [leadsWith] at h
    | cons c cs =>
      simp only [leadsWith, Bool.and_eq_true] at h
      simp only [List.cons_append, leadsWith, Bool.and_eq_true]
      exact ⟨h.1, ih cs h.2⟩

/-- A head match is exactly an equality with the corresponding take. -/
theorem leadsWith_iff_take (p l : List Char) :
    leadsWith p l = true ↔ l.take p.length = p := by
  induction p generalizing l with
  | nil => simp [leadsWith]
  | cons q qs ih =>
    cases l with
    | nil => simp [leadsWith]
    | cons c cs =>
      simp only [leadsWith, Bool.and_eq_true, beq_iff_eq, List.length_cons,
        List.take_succ_cons, List.cons.injEq, ih]
      constructor
      · rintro ⟨h1, h2⟩; exact ⟨h1.symm, h2⟩
      · rintro ⟨h1, h2⟩; exact ⟨h1.symm, h2⟩

/-- For a key that does not contain the tag, the tag never matches at
the head of key ++ tag: not inside the key because the key does not
contain it, and not across the junction because the tag is unbordered. -/
theorem leadsWith_tagL_append (key : List Char) (hne : key ≠ [])
    (h : containsSeq tagL key = false) : leadsWith tagL (key ++ tagL) = false := by
  rw [leadsWith_split]
  by_cases hlen : 5 ≤ key.length
  · have h5 : tagL.length = 5 := rfl
    have ht : tagL.take key.length = tagL := List.take_of_length_le (by omega)
    rw [ht]
    have h1 : leadsWith tagL key = false := by
      cases key with
      | nil => exact absurd rfl hne
      | cons c cs =>
        have h2 := h
        simp only [containsSeq, Bool.or_eq_false_iff] at h2
        exact h2.1
    simp [h1]
  · have hpos : 0 < key.length := List.length_pos.mpr hne
    have hu := tagL_unbordered key.length (by omega) hpos
    rw [hu]
    simp

/-- The unfolding equation of stripTag at any argument of length at
least five. -/
theorem stripTag_cons_ge4 (c : Char) (l : List Char) (h : 4 ≤ l.length) :
    stripTag (c :: l) = if leadsWith tagL (c :: l) then stripTag (l.drop 4)
      else c :: stripTag l := by
  rcases l with _ | ⟨a, _ | ⟨b, _ | ⟨d, _ | ⟨e, rest⟩⟩⟩⟩
  · simp at h
  · simp at h
  · simp at h
  · simp at h
  · rfl

/-- Removing the tag from key ++ tag gives back a key that does not
contain the tag. -/
theorem stripTag_append_of_not_contains (key : List Char)
    (h : containsSeq tagL key = false) : stripTag (key ++ tagL) = key := by
  induction key with
  | nil => decide
  | cons c ks ih =>
    have h5 : tagL.length = 5 := rfl
    have hlen : 4 ≤ (ks ++ tagL).length := by
      rw [List.length_append]; omega
    have hparts : leadsWith tagL (c :: ks) = false ∧ containsSeq tagL ks = false := by
      have h2 := h
      simp only [containsSeq, Bool.or_eq_false_iff] at h2
      exact h2
    have hnl := leadsWith_tagL_append (c :: ks) (by simp) h
    simp only [List.cons_append] at hnl
    rw [List.cons_append, stripTag_cons_ge4 c (ks ++ tagL) hlen, if_neg (by simp [hnl]),
      ih hparts.2]

/-- Removing the tag from key ++ tag shrinks the result by at least
five characters relative to the key whenever the key itself contains
the tag: the occurrence inside the key is removed as well. -/
theorem stripTag_shrink_fuel : ∀ (n : Nat) (key : List Char), key.length ≤ n →
    containsSeq tagL key = true → (stripTag (key ++ tagL)).length + 5 ≤ key.length := by
  intro n
  induction n with
  | zero =>
    intro key hl hc
    have : key = [] := List.eq_nil_of_length_eq_zero (by omega)
    subst this
    exact absurd hc (by decide)
  | succ n ih =>
    intro key hl hc
    cases key with
    | nil => exact absurd hc (by decide)
    | cons c ks =>
      have h5 : tagL.length = 5 := rfl
      have hlen4 : 4 ≤ (ks ++ tagL).length := by
        rw [List.length_append]; omega
      rw [List.cons_append, stripTag_cons_ge4 c (ks ++ tagL) hlen4]
      by_cases hlw : leadsWith tagL (c :: (ks ++ tagL)) = true
      · rw [if_pos hlw]
        have hkeylen : 5 ≤ (c :: ks).length := by
          by_contra hcon
          push_neg at hcon
          have hpos : 0 < (c :: ks).length := by simp
          have hu := tagL_unbordered (c :: ks).length hcon hpos
          have hsplit := leadsWith_split (c :: ks) tagL tagL
          simp only [List.cons_append] at hsplit
          rw [hlw, hu] at hsplit
          simp at hsplit
        have hsplit := leadsWith_split (c :: ks) tagL tagL
        simp only [List.cons_append] at hsplit
        rw [hlw] at hsplit
        have ht : tagL.take (c :: ks).length = tagL := List.take_of_length_le (by omega)
        have hd : tagL.drop (c :: ks).length = [] := List.drop_eq_nil_of_le (by omega)
        rw [ht, hd] at hsplit
        have hlwkey : leadsWith tagL (c :: ks) = true := by
          have h2 := hsplit.symm
          simpa [leadsWith] using h2
        have hksl : 4 ≤ ks.length := by simp at hkeylen; omega
        rw [List.drop_append_of_le_length hksl]
        by_cases hc2 : containsSeq tagL (ks.drop 4) = true
        · have h3 := ih (ks.drop 4) (by simp at hl ⊢; omega) hc2
          simp only [List.length_drop, List.length_cons] at h3 ⊢
          omega
        · have hc2f : containsSeq tagL (ks.drop 4) = false := by
            cases h4 : containsSeq tagL (ks.drop 4)
            · rfl
            · exact absurd h4 hc2
          rw [stripTag_append_of_not_contains _ hc2f]
          simp only [List.length_drop, List.length_cons]
          omega
      · rw [if_neg hlw]
        have hcks : containsSeq tagL ks = true := by
          have hun := hc
          simp only [containsSeq, Bool.or_eq_true] at hun
          rcases hun with h1 | h1
          · exact absurd (leadsWith_mono tagL (c :: ks) tagL h1)
              (by simpa [List.cons_append] using hlw)
          · exact h1
        have h3 := ih ks (by simp at hl; omega) hcks
        simp only [List.length_cons]
        omega

/-- Claim C8: for every key that does not contain the tag substring,
removeHashTagKey inverts hashTagKey, so stored items come back under
exactly the caller-supplied keys; for a key that does contain the tag,
every occurrence is stripped and the round-trip does not return the
original key. -/
theorem hashtag_key_roundtrip (key : String) :
    (containsSeq tagL key.toList = false →
      removeHashTagKey (hashTagKey key) = key) ∧
    (containsSeq tagL key.toList = true →
      removeHashTagKey (hashTagKey key) ≠ key) := by
  have hdata : (hashTagKey key).toList = key.toList ++ tagL := by
    show (key.data ++ ".".data) ++ hashtag.data = key.data ++ (".".data ++ hashtag.data)
    rw [List.append_assoc]
  constructor
  · intro h
    apply String.ext
    show stripTag (hashTagKey key).toList = key.data
    rw [hdata]
    exact stripTag_append_of_not_contains _ h
  · intro h hcon
    have hs := stripTag_shrink_fuel key.toList.length key.toList (le_refl _) h
    have hdd : stripTag (key.toList ++ tagL) = key.data := by
      have h2 := congrArg String.data hcon
      rw [← hdata]
      exact h2
    have htl : key.toList = key.data := rfl
    rw [htl] at hdd hs
    rw [hdd] at hs
    omega

/-- Witness for C8: a clean key round-trips, a key containing the tag
does not. -/
theorem hashtag_key_roundtrip_witness :
    removeHashTagKey (hashTagKey "flagA") = "flagA" ∧
    removeHashTagKey (hashTagKey "a.{ld}b") ≠ "a.{ld}b" :=
  ⟨(hashtag_key_roundtrip "flagA").1 (by decide),
   (hashtag_key_roundtrip "a.{ld}b").2 (by decide)⟩

/-- Claim C6 (spec-modelled): with a TTL of zero every wrapper Get and
GetAll reaches the backend and returns the backend result (caching is
disabled); with a negative TTL a cached entry never expires, so after
one Get populates the cache a second Get at any later time returns the
first result without touching the backend even against a changed
backend, until a write through the wrapper replaces the per-key entry
with the written item. -/
theorem cache_ttl_semantics (o : StoreOptions) :
    (GetCacheTTL o = 0 →
      (∀ now w c kind key,
        (wrapperGet o now w c kind key).2.2 = true ∧
        (wrapperGet o now w c kind key).1 = GetInternal o c kind key) ∧
      (∀ now w c kind,
        (wrapperGetAll o now w c kind).2.2 = true ∧
        (wrapperGetAll o now w c kind).1 = GetAllInternal o c kind)) ∧
    (GetCacheTTL o < 0 →
      ∀ now now2 (w : WrapperCache) c c2 kind key v,
        GetInternal o c kind key = .ok v →
        alookup w.itemEntries (entryKey kind key) = none →
        (wrapperGet o now2 ((wrapperGet o now w c kind key).2.1) c2 kind key).1 = .ok v ∧
        (wrapperGet o now2 ((wrapperGet o now w c kind key).2.1) c2 kind key).2.2 = false) ∧
    (GetCacheTTL o < 0 →
      ∀ now now2 (w : WrapperCache) kind newItem trace r2 w2 c2,
        wrapperUpsert o now w kind newItem trace = some (.ok r2, w2) →
        (wrapperGet o now2 w2 c2 kind newItem.key).1 = .ok (some r2) ∧
        (wrapperGet o now2 w2 c2 kind newItem.key).2.2 = false) := by
  refine ⟨?_, ?_, ?_⟩
  · intro h0
    exact ⟨fun now w c kind key => by simp [wrapperGet, h0],
           fun now w c kind => by simp [wrapperGetAll, h0]⟩
  · intro hneg now now2 w c c2 kind key v hget hmiss
    have h0 : ¬ GetCacheTTL o = 0 := by omega
    have hc1 : (wrapperGet o now w c kind key).2.1
        = ⟨aset w.itemEntries (entryKey kind key) (v, now), w.allEntries⟩ := by
      simp [wrapperGet, h0, hmiss, wrapperReadItem, hget]
    rw [hc1]
    have hhit : alookup (aset w.itemEntries (entryKey kind key) (v, now)) (entryKey kind key)
        = some (v, now) := alookup_aset_self _ _ _
    have hfresh : cacheFresh (GetCacheTTL o) now2 now = true := by
      simp [cacheFresh, hneg]
    constructor
    · simp [wrapperGet, h0, hhit, hfresh]
    · simp [wrapperGet, h0, hhit, hfresh]
  · intro hneg now now2 w kind newItem trace r2 w2 c2 hu
    have h0 : ¬ GetCacheTTL o = 0 := by omega
    rcases hres : UpsertInternal o kind newItem trace with _ | ⟨st, r⟩
    · rw [wrapperUpsert, hres] at hu; cases hu
    · rcases r with e | it
      · rw [wrapperUpsert, hres] at hu; cases hu
      · simp only [wrapperUpsert, hres] at hu
        rw [if_neg h0] at hu
        have hr2 : r2 = it ∧ w2 = ⟨aset w.itemEntries (entryKey kind newItem.key) (some it, now),
            aremove w.allEntries kind.ns⟩ := by
          have h1 := Option.some.inj hu
          exact ⟨(Except.ok.inj (congrArg Prod.fst h1)).symm, (congrArg Prod.snd h1).symm⟩
        obtain ⟨hr2a, hr2b⟩ := hr2
        subst hr2a; subst hr2b
        have hhit : alookup (aset w.itemEntries (entryKey kind newItem.key) (some r2, now))
            (entryKey kind newItem.key) = some (some r2, now) := alookup_aset_self _ _ _
        have hfresh : cacheFresh (GetCacheTTL o) now2 now = true := by
          simp [cacheFresh, hneg]
        constructor
        · simp [wrapperGet, h0, hhit, hfresh]
        · simp [wrapperGet, h0, hhit, hfresh]

/-- Witness for C6: with TTL zero a wrapper Get on the empty cache
reaches the backend. -/
theorem cache_ttl_semantics_witness :
    (wrapperGet ⟨"launchdarkly", 0⟩ 0 emptyCache emptyConn featuresKind "flag").2.2 = true :=
  (((cache_ttl_semantics ⟨"launchdarkly", 0⟩).1 rfl).1 0 emptyCache emptyConn
    featuresKind "flag").1

end RedisCluster
